import Mathlib

/-!
Verification of the sliding-window perplexity estimator from
`Perplexity_Tutorial.ipynb` (cell 12).  The notebook's algorithmic content is
the strided sliding-window loop

    nlls = []
    prev_end_loc = 0
    for begin_loc in range(0, seq_len, stride):
        end_loc = min(begin_loc + max_length, seq_len)
        trg_len = end_loc - prev_end_loc
        input_ids = encodings.input_ids[:, begin_loc:end_loc]
        target_ids = input_ids.clone()
        target_ids[:, :-trg_len] = -100
        neg_log_likelihood = model(input_ids, labels=target_ids).loss * trg_len
        nlls.append(neg_log_likelihood)
        prev_end_loc = end_loc
        if end_loc == seq_len:
            break
    ppl = torch.exp(torch.stack(nlls).sum() / end_loc)

The model scorer `model(input_ids, labels=target_ids).loss` (average negative
log-likelihood over the non-ignored target positions) and the exponential
`torch.exp` are external collaborators; they are kept abstract as function
parameters `score` and `exp`.  Token sequences are lists of integers, and the
loss arithmetic is carried out in `ℚ`.
-/

namespace Perplexity

/-- Python slice `tokens[begin_loc:end_loc]` for `0 ≤ begin_loc ≤ end_loc`:
drop the first `begin_loc` elements, then take `end_loc - begin_loc`. -/
def pySlice (tokens : List ℤ) (begin_loc end_loc : ℕ) : List ℤ :=
  (tokens.drop begin_loc).take (end_loc - begin_loc)

/-- Overwrite the first `k` positions of a list with the ignore-sentinel
`-100`, keeping the rest; this is the effect of the slice assignment
`target_ids[:, :k] = -100`. -/
def maskTargetsGo : ℕ → List ℤ → List ℤ
  | 0, xs => xs
  | _ + 1, [] => []
  | k + 1, _ :: xs => -100 :: maskTargetsGo k xs

/-- The notebook's `target_ids[:, :-trg_len] = -100`: a copy of the window in
which the Python slice `[:-trg_len]` is overwritten with the ignore-sentinel
`-100`.  For `trg_len ≥ 1` that slice is the first `length - trg_len`
positions (clamped at `0`); for `trg_len = 0` Python reads `[:-0] = [:0]`,
the empty slice, so nothing is masked. -/
def maskTargets (window : List ℤ) (trg_len : ℕ) : List ℤ :=
  if trg_len = 0 then window
  else maskTargetsGo (window.length - trg_len) window

/-- The window plan traced by the loop of cell 12: the `(begin_loc, end_loc,
trg_len)` triple of each executed iteration, in order.  `begin_loc` ranges
over `range(0, seq_len, stride)`, `end_loc = min(begin_loc + max_length,
seq_len)`, `trg_len = end_loc - prev_end_loc`, and the loop breaks as soon as
`end_loc = seq_len`.  The `fuel` argument bounds the recursion depth; the
top-level entry point `windows` supplies `seq_len + 1`, which is never
exhausted when `stride ≥ 1`. -/
def windowsGo (seq_len max_length stride : ℕ) : ℕ → ℕ → ℕ → List (ℕ × ℕ × ℕ)
  | 0, _, _ => []
  | fuel + 1, begin_loc, prev_end_loc =>
    if begin_loc < seq_len then
      let end_loc := min (begin_loc + max_length) seq_len
      let trg_len := end_loc - prev_end_loc
      (begin_loc, end_loc, trg_len) ::
        (if end_loc = seq_len then []
         else windowsGo seq_len max_length stride fuel (begin_loc + stride) end_loc)
    else []

/-- Window plan of the full loop: `begin_loc` starts at `0` and
`prev_end_loc` starts at `0`. -/
def windows (seq_len max_length stride : ℕ) : List (ℕ × ℕ × ℕ) :=
  windowsGo seq_len max_length stride (seq_len + 1) 0 0

/-- Per-window contribution appended to `nlls`: the scorer's average negative
log-likelihood on `(input_ids, target_ids)`, multiplied by `trg_len`. -/
def windowNll (score : List ℤ → List ℤ → ℚ) (tokens : List ℤ)
    (w : ℕ × ℕ × ℕ) : ℚ :=
  score (pySlice tokens w.1 w.2.1) (maskTargets (pySlice tokens w.1 w.2.1) w.2.2)
    * (w.2.2 : ℚ)

/-- The state-threading loop of cell 12, scoring each window as it is
visited: returns the list `nlls` together with the value of the Python
variable `end_loc` after the loop (the last window's `end_loc`, or
`prev_end_loc`'s initial value if no iteration ran). -/
def pplGo (score : List ℤ → List ℤ → ℚ) (tokens : List ℤ)
    (max_length stride : ℕ) : ℕ → ℕ → ℕ → List ℚ × ℕ
  | 0, _, prev_end_loc => ([], prev_end_loc)
  | fuel + 1, begin_loc, prev_end_loc =>
    if begin_loc < tokens.length then
      let end_loc := min (begin_loc + max_length) tokens.length
      let trg_len := end_loc - prev_end_loc
      let input_ids := pySlice tokens begin_loc end_loc
      let target_ids := maskTargets input_ids trg_len
      let neg_log_likelihood := score input_ids target_ids * (trg_len : ℚ)
      if end_loc = tokens.length then ([neg_log_likelihood], end_loc)
      else
        let rest := pplGo score tokens max_length stride fuel (begin_loc + stride) end_loc
        (neg_log_likelihood :: rest.1, rest.2)
    else ([], prev_end_loc)

/-- The whole of cell 12, `estimate_perplexity(tokens, max_length, stride)`:
run the sliding-window loop and return `exp(sum(nlls) / end_loc)`.  The two
failure modes present in the code are modelled as `none`: `stride = 0` makes
`range(0, seq_len, 0)` raise `ValueError`, and an empty `nlls` makes
`torch.stack(nlls)` raise (and leaves `end_loc` unbound).  The code performs
no other validation of `tokens`, `max_length` or `stride`. -/
def estimate_perplexity (exp : ℚ → ℚ) (score : List ℤ → List ℤ → ℚ)
    (tokens : List ℤ) (max_length stride : ℕ) : Option ℚ :=
  if stride = 0 then none
  else if (pplGo score tokens max_length stride (tokens.length + 1) 0 0).1 = []
    then none
  else some (exp
    ((pplGo score tokens max_length stride (tokens.length + 1) 0 0).1.sum /
      ((pplGo score tokens max_length stride (tokens.length + 1) 0 0).2 : ℚ)))

/-- Unfolding equation for `windowsGo` at positive fuel. -/
lemma windowsGo_succ (n M s f b p : ℕ) :
    windowsGo n M s (f + 1) b p =
      if b < n then
        (b, min (b + M) n, min (b + M) n - p) ::
          (if min (b + M) n = n then []
           else windowsGo n M s f (b + s) (min (b + M) n))
      else [] := rfl

/-- Fuel exhaustion returns the empty plan. -/
lemma windowsGo_zero (n M s b p : ℕ) : windowsGo n M s 0 b p = [] := rfl

/-- Coverage invariant, generalized over the loop state: starting an
iteration at `begin_loc = b` with `prev_end_loc = p`, under the loop
invariant `b ≤ p < b + M`, `b < n`, `p < n` and sufficient fuel, the
`trg_len`s of the remaining windows sum to `n - p`. -/
lemma windowsGo_trg_sum (n M s : ℕ) (hs : 1 ≤ s) (hsM : s ≤ M) :
    ∀ fuel b p, b < n → p < n → b ≤ p → p < b + M → n ≤ fuel + b →
      ((windowsGo n M s fuel b p).map (fun w => w.2.2)).sum = n - p := by
  intro fuel
  induction fuel with
  | zero => intro b p hb hp _ _ hfuel; omega
  | succ f ih =>
    intro b p hb hp hbp hpM hfuel
    rw [windowsGo_succ, if_pos hb]
    by_cases hend : min (b + M) n = n
    · rw [if_pos hend]
      simp only [List.map_cons, List.map_nil, List.sum_cons, List.sum_nil]
      omega
    · have hbM : b + M < n := by omega
      rw [if_neg hend]
      simp only [List.map_cons, List.sum_cons]
      rw [ih (b + s) (min (b + M) n) (by omega) (by omega) (by omega)
          (by omega) (by omega)]
      omega

/-- C1: under the preconditions `seq_len ≥ 1`, `max_length ≥ 1`,
`1 ≤ stride ≤ max_length`, the sum of `trg_len` over all windows processed
by the sliding-window loop equals `seq_len` exactly: no token is counted
twice in the loss weighting and none is skipped. -/
theorem c1_coverage_invariant (seq_len max_length stride : ℕ)
    (hn : 1 ≤ seq_len) (hM : 1 ≤ max_length) (hs : 1 ≤ stride)
    (hsM : stride ≤ max_length) :
    ((windows seq_len max_length stride).map (fun w => w.2.2)).sum = seq_len := by
  have := windowsGo_trg_sum seq_len max_length stride hs hsM
    (seq_len + 1) 0 0 (by omega) (by omega) (by omega) (by omega) (by omega)
  simpa [windows] using this

/-- Witness for C1 at `tokens = [1..10]`, `max_length = 5`, `stride = 3`. -/
theorem c1_coverage_invariant_witness :
    ((windows 10 5 3).map (fun w => w.2.2)).sum = 10 :=
  c1_coverage_invariant 10 5 3 (by decide) (by decide) (by decide) (by decide)

/-- Masking the first `k` positions keeps the length. -/
lemma maskTargetsGo_length (k : ℕ) (xs : List ℤ) :
    (maskTargetsGo k xs).length = xs.length := by
  induction xs generalizing k with
  | nil => cases k <;> rfl
  | cons x xs ih =>
    cases k with
    | zero => rfl
    | succ k => simp [maskTargetsGo, ih]

/-- Masking the first `k ≤ length` positions replaces exactly them with the
sentinel and keeps the suffix. -/
lemma maskTargetsGo_eq_append (k : ℕ) (xs : List ℤ) (hk : k ≤ xs.length) :
    maskTargetsGo k xs = List.replicate k (-100) ++ xs.drop k := by
  induction xs generalizing k with
  | nil =>
    have : k = 0 := by simpa using hk
    simp [this, maskTargetsGo]
  | cons x xs ih =>
    cases k with
    | zero => rfl
    | succ k =>
      simp only [maskTargetsGo, List.replicate_succ, List.cons_append,
        List.drop_succ_cons]
      rw [ih k (by simpa using hk)]

/-- Masking never changes the window length. -/
lemma maskTargets_length (window : List ℤ) (trg_len : ℕ) :
    (maskTargets window trg_len).length = window.length := by
  unfold maskTargets
  split
  · rfl
  · exact maskTargetsGo_length _ _

/-- Masking with a positive `trg_len` bounded by the window length replaces
exactly the first `length - trg_len` positions with the sentinel. -/
lemma maskTargets_eq_append (window : List ℤ) (trg_len : ℕ)
    (h1 : 1 ≤ trg_len) :
    maskTargets window trg_len =
      List.replicate (window.length - trg_len) (-100) ++
        window.drop (window.length - trg_len) := by
  unfold maskTargets
  rw [if_neg (by omega)]
  exact maskTargetsGo_eq_append _ _ (by omega)

/-- C4: for every window and `trg_len` with `1 ≤ trg_len ≤ window.length`
(as holds for every window the loop scores), the constructed targets list is
the window with every position except the final `trg_len` positions replaced
by the ignore-sentinel `-100`, the final `trg_len` positions retaining the
true token ids. -/
theorem c4_target_masking (window : List ℤ) (trg_len : ℕ)
    (h1 : 1 ≤ trg_len) (_h2 : trg_len ≤ window.length) :
    maskTargets window trg_len =
      List.replicate (window.length - trg_len) (-100) ++
        window.drop (window.length - trg_len) :=
  maskTargets_eq_append window trg_len h1

/-- Witness for C4 at the spec's concrete instance: window `(3,8)` of
`tokens = [1..10]` is `[4,5,6,7,8]`; with `trg_len = 3` positions `0,1`
(tokens `4,5`) are masked and positions `2,3,4` retain `6,7,8`. -/
theorem c4_target_masking_witness :
    (1 ≤ 3 ∧ 3 ≤ (pySlice [1, 2, 3, 4, 5, 6, 7, 8, 9, 10] 3 8).length) ∧
    maskTargets (pySlice [1, 2, 3, 4, 5, 6, 7, 8, 9, 10] 3 8) 3 =
      [-100, -100, 6, 7, 8] :=
  ⟨⟨by decide, by decide⟩,
    (c4_target_masking (pySlice [1, 2, 3, 4, 5, 6, 7, 8, 9, 10] 3 8) 3
      (by decide) (by decide)).trans (by decide)⟩

/-- Loop invariants, generalized over the loop state: starting at
`begin_loc = b`, `prev_end_loc = p` with `b ≤ p < b + M`, `b < n`, `p < n`
and sufficient fuel, the remaining plan is nonempty, its last `end_loc` is
`n` (the break fires), the `end_loc`s are strictly increasing from `p`, and
every window has `begin_loc < n`, `end_loc = min (begin_loc + M) n` and
`1 ≤ trg_len ≤ end_loc - begin_loc`. -/
lemma windowsGo_props (n M s : ℕ) (hs : 1 ≤ s) (hsM : s ≤ M) :
    ∀ fuel b p, b < n → p < n → b ≤ p → p < b + M → n ≤ fuel + b →
      windowsGo n M s fuel b p ≠ [] ∧
      ((windowsGo n M s fuel b p).map (fun w => w.2.1)).getLastD p = n ∧
      List.Chain' (fun u v => u < v)
        (p :: (windowsGo n M s fuel b p).map (fun w => w.2.1)) ∧
      ∀ w ∈ windowsGo n M s fuel b p,
        w.1 < n ∧ w.2.1 = min (w.1 + M) n ∧ 1 ≤ w.2.2 ∧
          w.2.2 ≤ w.2.1 - w.1 := by
  intro fuel
  induction fuel with
  | zero => intro b p hb hp _ _ hfuel; omega
  | succ f ih =>
    intro b p hb hp hbp hpM hfuel
    rw [windowsGo_succ, if_pos hb]
    by_cases hend : min (b + M) n = n
    · refine ⟨by simp, ?_, ?_, ?_⟩
      · rw [if_pos hend, List.map_cons, List.map_nil, List.getLastD_cons,
          List.getLastD_nil]
        exact hend
      · rw [if_pos hend, List.map_cons, List.map_nil]
        exact List.chain'_cons.2
          ⟨show p < min (b + M) n by omega, List.chain'_singleton _⟩
      · rw [if_pos hend]
        intro w hw
        simp only [List.mem_singleton] at hw
        subst hw
        exact ⟨hb, rfl, show 1 ≤ min (b + M) n - p by omega,
          show min (b + M) n - p ≤ min (b + M) n - b by omega⟩
    · have hbM : b + M < n := by omega
      rw [if_neg hend]
      obtain ⟨hne, hlast, hchain, hall⟩ :=
        ih (b + s) (min (b + M) n) (by omega) (by omega) (by omega)
          (by omega) (by omega)
      refine ⟨by simp, ?_, ?_, ?_⟩
      · rw [List.map_cons, List.getLastD_cons]
        exact hlast
      · rw [List.map_cons]
        exact List.chain'_cons.2 ⟨show p < min (b + M) n by omega, hchain⟩
      · intro w hw
        rcases List.mem_cons.1 hw with hw | hw
        · subst hw
          exact ⟨hb, rfl, show 1 ≤ min (b + M) n - p by omega,
            show min (b + M) n - p ≤ min (b + M) n - b by omega⟩
        · exact hall w hw

/-- Instantiation at the loop's real initial state. -/
lemma windows_props (n M s : ℕ) (hn : 1 ≤ n) (hM : 1 ≤ M) (hs : 1 ≤ s)
    (hsM : s ≤ M) :
    windows n M s ≠ [] ∧
    ((windows n M s).map (fun w => w.2.1)).getLastD 0 = n ∧
    List.Chain' (fun u v => u < v)
      (0 :: (windows n M s).map (fun w => w.2.1)) ∧
    ∀ w ∈ windows n M s,
      w.1 < n ∧ w.2.1 = min (w.1 + M) n ∧ 1 ≤ w.2.2 ∧
        w.2.2 ≤ w.2.1 - w.1 :=
  windowsGo_props n M s hs hsM (n + 1) 0 0 (by omega) (by omega) (by omega)
    (by omega) (by omega)

/-- Length of a slice that stays inside the token list. -/
lemma pySlice_length (tokens : List ℤ) (b e : ℕ) (hbe : b ≤ e)
    (he : e ≤ tokens.length) : (pySlice tokens b e).length = e - b := by
  simp only [pySlice, List.length_take, List.length_drop]
  omega

/-- C10: under the preconditions, every executed iteration has
`1 ≤ trg_len ≤ end_loc - begin_loc`, the sequence of `prev_end_loc` values
(`0` followed by the successive `end_loc`s) is strictly increasing, and
since `trg_len` is never `0` the slice assignment
`target_ids[:, :-trg_len] = -100` masks exactly the first
`window length - trg_len` positions of the window, never silently masking
nothing. -/
theorem c10_iteration_invariants (tokens : List ℤ) (max_length stride : ℕ)
    (hn : 1 ≤ tokens.length) (hM : 1 ≤ max_length) (hs : 1 ≤ stride)
    (hsM : stride ≤ max_length) :
    List.Chain' (fun u v => u < v)
      (0 :: (windows tokens.length max_length stride).map (fun w => w.2.1)) ∧
    ∀ w ∈ windows tokens.length max_length stride,
      1 ≤ w.2.2 ∧ w.2.2 ≤ w.2.1 - w.1 ∧
      maskTargets (pySlice tokens w.1 w.2.1) w.2.2 =
        List.replicate ((w.2.1 - w.1) - w.2.2) (-100) ++
          (pySlice tokens w.1 w.2.1).drop ((w.2.1 - w.1) - w.2.2) := by
  obtain ⟨-, -, hchain, hall⟩ :=
    windows_props tokens.length max_length stride hn hM hs hsM
  refine ⟨hchain, fun w hw => ?_⟩
  obtain ⟨hb, he, h1, h2⟩ := hall w hw
  have hbe : w.1 ≤ w.2.1 := by omega
  have hen : w.2.1 ≤ tokens.length := by omega
  have hlen : (pySlice tokens w.1 w.2.1).length = w.2.1 - w.1 :=
    pySlice_length tokens w.1 w.2.1 hbe hen
  refine ⟨h1, h2, ?_⟩
  rw [maskTargets_eq_append (pySlice tokens w.1 w.2.1) w.2.2 h1, hlen]

/-- Witness for C10 at `tokens = [1..10]`, `max_length = 5`, `stride = 3`. -/
theorem c10_iteration_invariants_witness :
    List.Chain' (fun u v => u < v)
      (0 :: (windows (10 : ℕ) 5 3).map (fun w => w.2.1)) ∧
    ∀ w ∈ windows (10 : ℕ) 5 3,
      1 ≤ w.2.2 ∧ w.2.2 ≤ w.2.1 - w.1 ∧
      maskTargets (pySlice [1, 2, 3, 4, 5, 6, 7, 8, 9, 10] w.1 w.2.1) w.2.2 =
        List.replicate ((w.2.1 - w.1) - w.2.2) (-100) ++
          (pySlice [1, 2, 3, 4, 5, 6, 7, 8, 9, 10] w.1 w.2.1).drop
            ((w.2.1 - w.1) - w.2.2) := by
  have h := c10_iteration_invariants [1, 2, 3, 4, 5, 6, 7, 8, 9, 10] 5 3
    (by decide) (by decide) (by decide) (by decide)
  simpa using h

/-- Unfolding equation for `pplGo` at positive fuel. -/
lemma pplGo_succ (score : List ℤ → List ℤ → ℚ) (tokens : List ℤ)
    (M s f b p : ℕ) :
    pplGo score tokens M s (f + 1) b p =
      if b < tokens.length then
        if min (b + M) tokens.length = tokens.length then
          ([score (pySlice tokens b (min (b + M) tokens.length))
              (maskTargets (pySlice tokens b (min (b + M) tokens.length))
                (min (b + M) tokens.length - p))
              * ((min (b + M) tokens.length - p : ℕ) : ℚ)],
            min (b + M) tokens.length)
        else
          (score (pySlice tokens b (min (b + M) tokens.length))
              (maskTargets (pySlice tokens b (min (b + M) tokens.length))
                (min (b + M) tokens.length - p))
              * ((min (b + M) tokens.length - p : ℕ) : ℚ) ::
            (pplGo score tokens M s f (b + s) (min (b + M) tokens.length)).1,
            (pplGo score tokens M s f (b + s) (min (b + M) tokens.length)).2)
      else ([], p) := rfl

/-- The state-threading loop computes exactly the per-window contributions of
the precomputed window plan, and its final `end_loc` is the plan's last
`end_loc` (defaulting to the incoming `prev_end_loc` when no iteration
runs). -/
lemma pplGo_eq_windows (score : List ℤ → List ℤ → ℚ) (tokens : List ℤ)
    (M s : ℕ) :
    ∀ fuel b p,
      pplGo score tokens M s fuel b p =
        (((windowsGo tokens.length M s fuel b p).map
            (windowNll score tokens)),
          ((windowsGo tokens.length M s fuel b p).map
            (fun w => w.2.1)).getLastD p) := by
  intro fuel
  induction fuel with
  | zero => intro b p; rfl
  | succ f ih =>
    intro b p
    rw [pplGo_succ, windowsGo_succ]
    by_cases hb : b < tokens.length
    · rw [if_pos hb, if_pos hb]
      by_cases hend : min (b + M) tokens.length = tokens.length
      · rw [if_pos hend, if_pos hend]
        rfl
      · rw [if_neg hend, if_neg hend, ih (b + s) (min (b + M) tokens.length)]
        rw [List.map_cons, List.map_cons, List.getLastD_cons]
        rfl
    · rw [if_neg hb, if_neg hb]
      rfl

/-- First component of `pplGo`: the list `nlls`. -/
lemma pplGo_fst (score : List ℤ → List ℤ → ℚ) (tokens : List ℤ)
    (M s fuel b p : ℕ) :
    (pplGo score tokens M s fuel b p).1 =
      (windowsGo tokens.length M s fuel b p).map (windowNll score tokens) := by
  rw [pplGo_eq_windows]

/-- Second component of `pplGo`: the final `end_loc`. -/
lemma pplGo_snd (score : List ℤ → List ℤ → ℚ) (tokens : List ℤ)
    (M s fuel b p : ℕ) :
    (pplGo score tokens M s fuel b p).2 =
      ((windowsGo tokens.length M s fuel b p).map (fun w => w.2.1)).getLastD p := by
  rw [pplGo_eq_windows]

/-- C2: under the preconditions the loop terminates through its break (the
window plan is nonempty, no window is degenerate, and the final `end_loc`
equals `seq_len`), and the estimator returns
`exp(total_weighted_nll / end_loc)` where `total_weighted_nll` is the sum
over windows of `avg_nll * trg_len`. -/
theorem c2_termination_and_result (exp : ℚ → ℚ)
    (score : List ℤ → List ℤ → ℚ) (tokens : List ℤ)
    (max_length stride : ℕ) (hn : 1 ≤ tokens.length) (hM : 1 ≤ max_length)
    (hs : 1 ≤ stride) (hsM : stride ≤ max_length) :
    windows tokens.length max_length stride ≠ [] ∧
    ((windows tokens.length max_length stride).map
      (fun w => w.2.1)).getLastD 0 = tokens.length ∧
    (∀ w ∈ windows tokens.length max_length stride, 1 ≤ w.2.2) ∧
    estimate_perplexity exp score tokens max_length stride =
      some (exp (((windows tokens.length max_length stride).map
        (windowNll score tokens)).sum / (tokens.length : ℚ))) := by
  obtain ⟨hne, hlast, -, hall⟩ :=
    windows_props tokens.length max_length stride hn hM hs hsM
  refine ⟨hne, hlast, fun w hw => (hall w hw).2.2.1, ?_⟩
  unfold estimate_perplexity
  rw [if_neg (show ¬stride = 0 by omega), pplGo_fst, pplGo_snd]
  have hmapne : (windowsGo tokens.length max_length stride
      (tokens.length + 1) 0 0).map (windowNll score tokens) ≠ [] := by
    simpa [windows] using hne
  rw [if_neg hmapne]
  have hlast' : ((windowsGo tokens.length max_length stride
      (tokens.length + 1) 0 0).map (fun w => w.2.1)).getLastD 0 =
      tokens.length := hlast
  rw [hlast']
  rfl

/-- Witness for C2 at `tokens = [1..10]`, `max_length = 5`, `stride = 3`,
with the identity for `exp` and the constant-zero scorer. -/
theorem c2_termination_and_result_witness :
    windows 10 5 3 ≠ [] ∧
    ((windows 10 5 3).map (fun w => w.2.1)).getLastD 0 = 10 ∧
    (∀ w ∈ windows 10 5 3, 1 ≤ w.2.2) ∧
    estimate_perplexity (fun q => q) (fun _ _ => 0)
      [1, 2, 3, 4, 5, 6, 7, 8, 9, 10] 5 3 =
      some (((windows 10 5 3).map
        (windowNll (fun _ _ => 0) [1, 2, 3, 4, 5, 6, 7, 8, 9, 10])).sum / 10) := by
  have h := c2_termination_and_result (fun q => q) (fun _ _ => 0)
    [1, 2, 3, 4, 5, 6, 7, 8, 9, 10] 5 3 (by decide) (by decide) (by decide)
    (by decide)
  simpa using h

/-- C5: when the whole sequence fits in one context window
(`seq_len ≤ max_length`), the loop executes exactly one window covering the
whole sequence with `trg_len = seq_len`, no position of that window is
masked, and the estimator returns `exp(score(tokens, tokens))` — the single
unstrided forward evaluation. -/
theorem c5_single_window_equivalence (exp : ℚ → ℚ)
    (score : List ℤ → List ℤ → ℚ) (tokens : List ℤ)
    (max_length stride : ℕ) (hn : 1 ≤ tokens.length) (hs : 1 ≤ stride)
    (_hsM : stride ≤ max_length) (hnM : tokens.length ≤ max_length) :
    windows tokens.length max_length stride =
      [(0, tokens.length, tokens.length)] ∧
    maskTargets tokens tokens.length = tokens ∧
    estimate_perplexity exp score tokens max_length stride =
      some (exp (score tokens tokens)) := by
  have hmin : min (0 + max_length) tokens.length = tokens.length := by omega
  have hwin : windows tokens.length max_length stride =
      [(0, tokens.length, tokens.length)] := by
    unfold windows
    rw [windowsGo_succ, if_pos (by omega), if_pos hmin, hmin, Nat.sub_zero]
  have hmask : maskTargets tokens tokens.length = tokens := by
    unfold maskTargets
    rw [if_neg (by omega), Nat.sub_self]
    rfl
  have hslice : pySlice tokens 0 tokens.length = tokens := by
    simp [pySlice]
  refine ⟨hwin, hmask, ?_⟩
  unfold estimate_perplexity
  rw [if_neg (show ¬stride = 0 by omega), pplGo_fst, pplGo_snd]
  have h1 : windowsGo tokens.length max_length stride (tokens.length + 1) 0 0 =
      [(0, tokens.length, tokens.length)] := hwin
  rw [h1]
  simp only [windowNll, List.map_cons, List.map_nil, List.sum_cons,
    List.sum_nil, List.getLastD_cons, List.getLastD_nil]
  rw [if_neg (by simp), hslice, hmask, add_zero]
  have hne : ((tokens.length : ℚ)) ≠ 0 := Nat.cast_ne_zero.2 (by omega)
  rw [mul_div_assoc, div_self hne, mul_one]

/-- Witness for C5 at `tokens = [7, 8, 9]`, `max_length = 5`, `stride = 3`,
with the identity for `exp` and a scorer returning `2` on the full window. -/
theorem c5_single_window_equivalence_witness :
    windows 3 5 3 = [(0, 3, 3)] ∧
    maskTargets [7, 8, 9] 3 = [7, 8, 9] ∧
    estimate_perplexity (fun q => q) (fun _ _ => 2) [7, 8, 9] 5 3 =
      some 2 := by
  have h := c5_single_window_equivalence (fun q => q) (fun _ _ => 2)
    [7, 8, 9] 5 3 (by decide) (by decide) (by decide) (by decide)
  simpa using h

/-- C9: the state-threading loop equals the two-phase formulation — first
precompute the `(begin_loc, end_loc, trg_len)` triples, then map the scoring
step over them — and, the reduction being a sum, any permutation of the
per-window contributions yields the same total. -/
theorem c9_two_phase_refinement (score : List ℤ → List ℤ → ℚ)
    (tokens : List ℤ) (max_length stride : ℕ) :
    (pplGo score tokens max_length stride (tokens.length + 1) 0 0).1 =
      (windows tokens.length max_length stride).map (windowNll score tokens) ∧
    ∀ l : List ℚ,
      l.Perm ((windows tokens.length max_length stride).map
        (windowNll score tokens)) →
      l.sum =
        (pplGo score tokens max_length stride (tokens.length + 1) 0 0).1.sum := by
  have h1 : (pplGo score tokens max_length stride (tokens.length + 1) 0 0).1 =
      (windows tokens.length max_length stride).map (windowNll score tokens) :=
    pplGo_fst score tokens max_length stride (tokens.length + 1) 0 0
  refine ⟨h1, fun l hl => ?_⟩
  rw [h1]
  exact hl.sum_eq

/-- Witness for C9: the reversed contribution list is a permutation with the
same sum as the loop's. -/
theorem c9_two_phase_refinement_witness :
    ((windows 10 5 3).map
      (windowNll (fun _ _ => 1) [1, 2, 3, 4, 5, 6, 7, 8, 9, 10])).reverse.Perm
      ((windows 10 5 3).map
        (windowNll (fun _ _ => 1) [1, 2, 3, 4, 5, 6, 7, 8, 9, 10])) ∧
    ((windows 10 5 3).map
      (windowNll (fun _ _ => 1) [1, 2, 3, 4, 5, 6, 7, 8, 9, 10])).reverse.sum =
      (pplGo (fun _ _ => 1) [1, 2, 3, 4, 5, 6, 7, 8, 9, 10] 5 3 11 0 0).1.sum :=
  ⟨List.reverse_perm _,
    (c9_two_phase_refinement (fun _ _ => 1)
      [1, 2, 3, 4, 5, 6, 7, 8, 9, 10] 5 3).2 _ (List.reverse_perm _)⟩

/-- With `stride = max_length`, `prev_end_loc` always equals the current
`begin_loc`, so windows are adjacent disjoint chunks covering the whole
window. -/
lemma windowsGo_chunks (n M : ℕ) (hM : 1 ≤ M) :
    ∀ fuel b, b < n → n ≤ fuel + b →
      (windowsGo n M M fuel b b).head? =
        some (b, min (b + M) n, min (b + M) n - b) ∧
      List.Chain' (fun u v => v.1 = u.2.1) (windowsGo n M M fuel b b) ∧
      ∀ w ∈ windowsGo n M M fuel b b,
        w.1 < n ∧ w.2.1 = min (w.1 + M) n ∧ w.2.2 = w.2.1 - w.1 := by
  intro fuel
  induction fuel with
  | zero => intro b hb hfuel; omega
  | succ f ih =>
    intro b hb hfuel
    rw [windowsGo_succ, if_pos hb]
    by_cases hend : min (b + M) n = n
    · rw [if_pos hend]
      refine ⟨rfl, List.chain'_singleton _, ?_⟩
      intro w hw
      simp only [List.mem_singleton] at hw
      subst hw
      exact ⟨hb, rfl, rfl⟩
    · have hbM : b + M < n := by omega
      have hmin : min (b + M) n = b + M := by omega
      rw [if_neg hend, hmin]
      obtain ⟨hhead, hchain, hall⟩ := ih (b + M) (by omega) (by omega)
      refine ⟨rfl, ?_, ?_⟩
      · refine List.chain'_cons'.2 ⟨?_, hchain⟩
        intro y hy
        rw [hhead] at hy
        simp only [Option.mem_def, Option.some.injEq] at hy
        subst hy
        rfl
      · intro w hw
        rcases List.mem_cons.1 hw with hw | hw
        · subst hw
          exact ⟨hb, show b + M = min (b + M) n by omega, rfl⟩
        · exact hall w hw

/-- C7: with `stride = max_length` consecutive windows are disjoint (each
window begins where the previous one ended), no position of any window is
masked, and the accumulated weighted sum equals the sum of per-chunk losses
weighted by chunk lengths — equivalently the chunk-length-weighted mean of
the per-chunk losses times `seq_len`: the algorithm coincides with disjoint
non-overlapping chunking. -/
theorem c7_disjoint_chunking (score : List ℤ → List ℤ → ℚ) (tokens : List ℤ)
    (max_length stride : ℕ) (hn : 1 ≤ tokens.length) (hM : 1 ≤ max_length)
    (hsM : stride = max_length) :
    List.Chain' (fun u v => v.1 = u.2.1)
      (windows tokens.length max_length stride) ∧
    (∀ w ∈ windows tokens.length max_length stride,
      w.2.2 = w.2.1 - w.1 ∧
      maskTargets (pySlice tokens w.1 w.2.1) w.2.2 =
        pySlice tokens w.1 w.2.1) ∧
    ((windows tokens.length max_length stride).map
      (windowNll score tokens)).sum =
      ((windows tokens.length max_length stride).map
        (fun w => score (pySlice tokens w.1 w.2.1) (pySlice tokens w.1 w.2.1) *
          ((w.2.1 - w.1 : ℕ) : ℚ))).sum ∧
    ((windows tokens.length max_length stride).map
      (windowNll score tokens)).sum =
      (((windows tokens.length max_length stride).map
        (fun w => score (pySlice tokens w.1 w.2.1) (pySlice tokens w.1 w.2.1) *
          ((w.2.1 - w.1 : ℕ) : ℚ))).sum / (tokens.length : ℚ)) *
        (tokens.length : ℚ) := by
  subst hsM
  obtain ⟨-, hchain, hall⟩ :=
    windowsGo_chunks tokens.length stride hM (tokens.length + 1) 0
      (by omega) (by omega)
  have hmaskid : ∀ w ∈ windows tokens.length stride stride,
      w.2.2 = w.2.1 - w.1 ∧
      maskTargets (pySlice tokens w.1 w.2.1) w.2.2 =
        pySlice tokens w.1 w.2.1 := by
    intro w hw
    obtain ⟨hb, he, ht⟩ := hall w hw
    have htrg1 : 1 ≤ w.2.2 := by omega
    have hbe : w.1 ≤ w.2.1 := by omega
    have hen : w.2.1 ≤ tokens.length := by omega
    have hlen : (pySlice tokens w.1 w.2.1).length = w.2.1 - w.1 :=
      pySlice_length tokens w.1 w.2.1 hbe hen
    refine ⟨ht, ?_⟩
    rw [maskTargets_eq_append _ _ htrg1, hlen, ht]
    simp
  have hmap : (windows tokens.length stride stride).map
      (windowNll score tokens) =
      (windows tokens.length stride stride).map
        (fun w => score (pySlice tokens w.1 w.2.1) (pySlice tokens w.1 w.2.1) *
          ((w.2.1 - w.1 : ℕ) : ℚ)) := by
    refine List.map_congr_left ?_
    intro w hw
    obtain ⟨ht, hmask⟩ := hmaskid w hw
    rw [windowNll, hmask, ht]
  refine ⟨hchain, hmaskid, by rw [hmap], ?_⟩
  rw [hmap, div_mul_cancel₀ _ (show ((tokens.length : ℚ)) ≠ 0 from
    Nat.cast_ne_zero.2 (by omega))]

/-- Witness for C7 at `tokens = [1..10]`, `max_length = stride = 5`, with
the constant-one scorer. -/
theorem c7_disjoint_chunking_witness :
    List.Chain' (fun u v => v.1 = u.2.1) (windows 10 5 5) ∧
    (∀ w ∈ windows 10 5 5,
      w.2.2 = w.2.1 - w.1 ∧
      maskTargets (pySlice [1, 2, 3, 4, 5, 6, 7, 8, 9, 10] w.1 w.2.1) w.2.2 =
        pySlice [1, 2, 3, 4, 5, 6, 7, 8, 9, 10] w.1 w.2.1) ∧
    ((windows 10 5 5).map
      (windowNll (fun _ _ => 1) [1, 2, 3, 4, 5, 6, 7, 8, 9, 10])).sum =
      ((windows 10 5 5).map
        (fun w => (fun (_ _ : List ℤ) => (1 : ℚ))
          (pySlice [1, 2, 3, 4, 5, 6, 7, 8, 9, 10] w.1 w.2.1)
          (pySlice [1, 2, 3, 4, 5, 6, 7, 8, 9, 10] w.1 w.2.1) *
          ((w.2.1 - w.1 : ℕ) : ℚ))).sum ∧
    ((windows 10 5 5).map
      (windowNll (fun _ _ => 1) [1, 2, 3, 4, 5, 6, 7, 8, 9, 10])).sum =
      (((windows 10 5 5).map
        (fun w => (fun (_ _ : List ℤ) => (1 : ℚ))
          (pySlice [1, 2, 3, 4, 5, 6, 7, 8, 9, 10] w.1 w.2.1)
          (pySlice [1, 2, 3, 4, 5, 6, 7, 8, 9, 10] w.1 w.2.1) *
          ((w.2.1 - w.1 : ℕ) : ℚ))).sum / ((10 : ℕ) : ℚ)) * ((10 : ℕ) : ℚ) := by
  have h := c7_disjoint_chunking (fun _ _ => 1)
    [1, 2, 3, 4, 5, 6, 7, 8, 9, 10] 5 5 (by decide) (by decide) rfl
  simpa using h

/-- With `stride < max_length`, once `prev_end_loc` exceeds `begin_loc` by
exactly `max_length - stride` (as holds from the second iteration on), every
remaining window has a masked prefix of exactly `max_length - stride`
positions. -/
lemma windowsGo_ctx (n M s : ℕ) (hs : 1 ≤ s) (hsM : s < M) :
    ∀ fuel b, b < n → b + (M - s) < n → n ≤ fuel + b →
      ∀ w ∈ windowsGo n M s fuel b (b + (M - s)),
        (w.2.1 - w.1) - w.2.2 = M - s := by
  intro fuel
  induction fuel with
  | zero => intro b hb _ hfuel; omega
  | succ f ih =>
    intro b hb hp hfuel
    rw [windowsGo_succ, if_pos hb]
    by_cases hend : min (b + M) n = n
    · rw [if_pos hend]
      intro w hw
      simp only [List.mem_singleton] at hw
      subst hw
      show (min (b + M) n - b) - (min (b + M) n - (b + (M - s))) = M - s
      omega
    · have hbM : b + M < n := by omega
      have hmin : min (b + M) n = b + M := by omega
      rw [if_neg hend, hmin,
        show b + M = (b + s) + (M - s) by omega]
      intro w hw
      rcases List.mem_cons.1 hw with hw | hw
      · subst hw
        show ((b + s) + (M - s) - b) - ((b + s) + (M - s) - (b + (M - s))) =
          M - s
        omega
      · exact ih (b + s) (by omega) (by omega) (by omega) w hw

/-- C8: with `stride < max_length`, every window after the first has a
masked prefix of exactly `max_length - stride` positions: its first
`max_length - stride` target positions are the sentinel and the rest retain
the true ids, so every scored position has at least `max_length - stride`
preceding context positions inside its window. -/
theorem c8_overlap_context (tokens : List ℤ) (max_length stride : ℕ)
    (hn : 1 ≤ tokens.length) (hs : 1 ≤ stride) (hsM : stride < max_length) :
    ∀ w ∈ (windows tokens.length max_length stride).tail,
      (w.2.1 - w.1) - w.2.2 = max_length - stride ∧
      (maskTargets (pySlice tokens w.1 w.2.1) w.2.2).take
          (max_length - stride) =
        List.replicate (max_length - stride) (-100) ∧
      (maskTargets (pySlice tokens w.1 w.2.1) w.2.2).drop
          (max_length - stride) =
        (pySlice tokens w.1 w.2.1).drop (max_length - stride) := by
  by_cases hnM : tokens.length ≤ max_length
  · have hwin : windows tokens.length max_length stride =
        [(0, tokens.length, tokens.length)] := by
      unfold windows
      rw [windowsGo_succ, if_pos (by omega),
        if_pos (show min (0 + max_length) tokens.length = tokens.length by
          omega),
        show min (0 + max_length) tokens.length = tokens.length by omega,
        Nat.sub_zero]
    rw [hwin]
    intro w hw
    simp at hw
  · push_neg at hnM
    have hmin : min (0 + max_length) tokens.length = max_length := by omega
    have htail : (windows tokens.length max_length stride).tail =
        windowsGo tokens.length max_length stride tokens.length
          (0 + stride) (min (0 + max_length) tokens.length) := by
      unfold windows
      rw [windowsGo_succ, if_pos (by omega), if_neg (by omega)]
      rfl
    have hctx := windowsGo_ctx tokens.length max_length stride hs hsM
      tokens.length (0 + stride) (by omega) (by omega) (by omega)
    obtain ⟨-, -, -, hall⟩ :=
      windowsGo_props tokens.length max_length stride hs (by omega)
        tokens.length (0 + stride) (min (0 + max_length) tokens.length)
        (by omega) (by omega) (by omega) (by omega) (by omega)
    intro w hw
    rw [htail] at hw
    have hw' := hw
    rw [hmin] at hw'
    nth_rewrite 2 [show max_length = (0 + stride) + (max_length - stride) by
      omega] at hw'
    have hpre : (w.2.1 - w.1) - w.2.2 = max_length - stride := hctx w hw'
    obtain ⟨hb, he, ht1, ht2⟩ := hall w hw
    have hbe : w.1 ≤ w.2.1 := by omega
    have hen : w.2.1 ≤ tokens.length := by omega
    have hlen : (pySlice tokens w.1 w.2.1).length = w.2.1 - w.1 :=
      pySlice_length tokens w.1 w.2.1 hbe hen
    have hmask : maskTargets (pySlice tokens w.1 w.2.1) w.2.2 =
        List.replicate (max_length - stride) (-100) ++
          (pySlice tokens w.1 w.2.1).drop (max_length - stride) := by
      rw [maskTargets_eq_append _ _ ht1, hlen, hpre]
    refine ⟨hpre, ?_, ?_⟩
    · rw [hmask, List.take_left' (by simp)]
    · rw [hmask, List.drop_left' (by simp)]

/-- Witness for C8 at `tokens = [1..10]`, `max_length = 5`, `stride = 3`,
instantiated at the second window `(3,8,3)`: it masks exactly its first
`2 = 5 - 3` positions. -/
theorem c8_overlap_context_witness :
    (3, 8, 3) ∈ (windows 10 5 3).tail ∧
    ((8 - 3) - 3 = 5 - 3 ∧
      (maskTargets (pySlice [1, 2, 3, 4, 5, 6, 7, 8, 9, 10] 3 8) 3).take
          (5 - 3) =
        List.replicate (5 - 3) (-100) ∧
      (maskTargets (pySlice [1, 2, 3, 4, 5, 6, 7, 8, 9, 10] 3 8) 3).drop
          (5 - 3) =
        (pySlice [1, 2, 3, 4, 5, 6, 7, 8, 9, 10] 3 8).drop (5 - 3)) :=
  ⟨by decide,
    c8_overlap_context [1, 2, 3, 4, 5, 6, 7, 8, 9, 10] 5 3 (by decide)
      (by decide) (by decide) (3, 8, 3) (by decide)⟩

/-- C6 counterexample: the code performs no precondition validation.  With
`max_length = 2` and `stride = 5` the precondition `stride ≤ max_length` is
violated, yet the estimator returns a perplexity value (here `some 0` with
the identity `exp` and the constant-zero scorer) instead of failing; its
window plan even stops at `end_loc = 7`, silently skipping tokens `8,9,10`. -/
theorem c6_counterexample_no_failure :
    ¬(5 ≤ 2) ∧
    estimate_perplexity (fun q => q) (fun _ _ => 0)
      [1, 2, 3, 4, 5, 6, 7, 8, 9, 10] 2 5 = some 0 := by
  constructor
  · decide
  · have hlen : ([1, 2, 3, 4, 5, 6, 7, 8, 9, 10] : List ℤ).length = 10 := rfl
    unfold estimate_perplexity
    rw [if_neg (by decide), pplGo_fst, pplGo_snd, hlen,
      show windowsGo 10 2 5 (10 + 1) 0 0 = [(0, 2, 2), (5, 7, 5)] from by
        decide]
    simp [windowNll]

/-- C6 amended: `estimate_perplexity` validates nothing; it fails (and then
with the underlying library error, not an `InvalidConfiguration`) exactly
when no window is ever scored — i.e. when `stride = 0` (a `range` with step
`0` raises `ValueError`) or the token sequence is empty (`torch.stack` on an
empty `nlls` raises).  For every other input, valid or not, it returns a
perplexity value. -/
theorem c6_amended_no_validation (exp : ℚ → ℚ)
    (score : List ℤ → List ℤ → ℚ) (tokens : List ℤ)
    (max_length stride : ℕ) :
    estimate_perplexity exp score tokens max_length stride = none ↔
      stride = 0 ∨ tokens = [] := by
  unfold estimate_perplexity
  by_cases hs : stride = 0
  · simp [hs]
  · rw [if_neg hs, pplGo_fst]
    by_cases ht : tokens = []
    · subst ht
      have h0 : windowsGo (List.length ([] : List ℤ)) max_length stride
          (List.length ([] : List ℤ) + 1) 0 0 = [] := by
        rw [windowsGo_succ]
        simp
      rw [h0]
      simp
    · have hn : 1 ≤ tokens.length := by
        cases tokens with
        | nil => simp at ht
        | cons x xs => simp
      have hne : windowsGo tokens.length max_length stride
          (tokens.length + 1) 0 0 ≠ [] := by
        rw [windowsGo_succ, if_pos (by omega)]
        simp
      simp [hne, hs, ht]

/-- C3: on tokens `[1..10]` with `max_length = 5`, `stride = 3`, the loop
executes exactly the windows `(0,5,5)`, `(3,8,3)`, `(6,10,2)` in that order
and stops; the iteration with `begin_loc = 9` never runs. -/
theorem c3_concrete_window_plan :
    windows 10 5 3 = [(0, 5, 5), (3, 8, 3), (6, 10, 2)] := by
  decide

end Perplexity
